import Mathlib

/-!
Verification of the conversation knowledge-graph engine of ContextDojo.

The embedding below follows the TypeScript source:
- `src/types.ts` — the data model (`MindMapNode`, `MindMapLink`, `GraphUpdate`).
- `src/App.tsx`, `triggerGraphUpdate` (lines 69–114) — the merge that
  reconciles candidate topic proposals into the node/link collections.
- `src/components/MindMap.tsx`, `computeDepths` (lines 33–65),
  `getPathToRoot` (lines 68–92), and the `simulationNodes` preparation
  (lines 122–133).

Strings are Lean `String`s; JavaScript's `toLowerCase()` is modelled by
`lowerStr` (character-wise lowercasing, which agrees with `toLowerCase`
on the ASCII labels involved and kernel-reduces on concrete inputs).
JavaScript records (`Record<string, T>`) are modelled as
`String → Option T` with pointwise update; JavaScript `Set`s as lists in
insertion order, used only through membership.
-/

/-- Lowercasing of a string, modelling JavaScript `String.prototype.toLowerCase`
as used by the merge for case-insensitive label comparison. -/
def lowerStr (s : String) : String := ⟨s.data.map Char.toLower⟩

/-- `type` field of `MindMapNode` (src/types.ts line 5). -/
inductive NodeType where
  | root
  | concept
  | entity
  | action
  | emotion
deriving DecidableEq, Repr

/-- `status` field of `MindMapNode` (src/types.ts line 6). -/
inductive NodeStatus where
  | active
  | potential
deriving DecidableEq, Repr

/-- `MindMapNode` (src/types.ts lines 1–7).  The interface declares
`id`, `label`, `group`, `type`, `status`; the layout additionally reads an
optional `description` off the node object (src/components/MindMap.tsx
line 370, `selectedNode.description || "No description available."`), so the
runtime object may or may not carry that property — modelled as
`Option String`, `none` when the property is absent. -/
structure MindMapNode where
  id : String
  label : String
  group : Nat
  type : NodeType
  status : NodeStatus
  description : Option String
deriving DecidableEq, Repr

/-- `MindMapLink` (src/types.ts lines 9–12): plain string endpoints.
(The layout code defensively unwraps `{id}` objects that d3 substitutes in
place of the strings during simulation; in the store the endpoints are
always the plain strings this structure models.) -/
structure MindMapLink where
  source : String
  target : String
deriving DecidableEq, Repr

/-- The graph slice of `DojoState` (src/types.ts lines 19–20): the
`mindMapNodes` and `mindMapLinks` collections owned by the store. -/
structure GraphState where
  nodes : List MindMapNode
  links : List MindMapLink
deriving DecidableEq, Repr

/-- Element type of `GraphUpdate.nodes` (src/types.ts lines 40–47): a
candidate topic proposal.  Its `type` enum excludes `root`; the response
schema in the topic-extraction service additionally requires a
`description` string on every candidate (src/unnamed/part_000,
`generateGraphUpdates` schema). -/
inductive CandidateType where
  | concept
  | entity
  | action
  | emotion
deriving DecidableEq, Repr

/-- Inclusion of the candidate `type` enum into the node `type` enum
(the source assigns `type: n.type` directly when creating a node). -/
def CandidateType.toNodeType : CandidateType → NodeType
  | .concept => .concept
  | .entity => .entity
  | .action => .action
  | .emotion => .emotion

/-- A candidate proposal from `GraphUpdate.nodes` (src/types.ts lines 40–47,
plus the `description` required by the service schema in
src/unnamed/part_000). -/
structure Candidate where
  label : String
  type : CandidateType
  status : NodeStatus
  parent : String
  description : String
deriving DecidableEq, Repr

/-- The sole initial node (src/App.tsx line 10). -/
def rootNode : MindMapNode :=
  { id := "Context", label := "Context", group := 1, type := .root,
    status := .active, description := none }

/-- `INITIAL_NODES` (src/App.tsx lines 9–11): the sole root node. -/
def INITIAL_NODES : List MindMapNode := [rootNode]

/-- The graph slice of `INITIAL_STATE` (src/App.tsx lines 13–17):
`mindMapNodes = INITIAL_NODES`, `mindMapLinks = []`. -/
def initialGraph : GraphState := { nodes := INITIAL_NODES, links := [] }

/-- The first node whose label matches `lab` case-insensitively: the search
`nextNodes.findIndex(ex => ex.label.toLowerCase() === n.label.toLowerCase())`
(src/App.tsx line 74; `findIndex ≠ -1` iff this returns `some`), also the
parent search `nextNodes.find(ex => ex.label.toLowerCase() ===
n.parent.toLowerCase())` (line 97). -/
def firstMatch? : List MindMapNode → String → Option MindMapNode
  | [], _ => none
  | n :: ns, lab =>
    if lowerStr n.label = lowerStr lab then some n else firstMatch? ns lab

/-- The root fallback `nextNodes.find(ex => ex.label === 'Context')`
(src/App.tsx line 98): first node whose label is exactly `"Context"`. -/
def findRoot? : List MindMapNode → Option MindMapNode
  | [] => none
  | n :: ns => if n.label = "Context" then some n else findRoot? ns

/-- The in-place update of the first case-insensitive match
(src/App.tsx lines 76–84): `findIndex` followed by
`nextNodes[existingNodeIndex] = { ...existingNode, status: 'active' }`
when `existingNode.status === 'potential' && n.status === 'active'`,
otherwise the array is left unchanged ("Do not downgrade active to
potential"). -/
def upgradeFirst (lab : String) (cstatus : NodeStatus) :
    List MindMapNode → List MindMapNode
  | [] => []
  | n :: ns =>
    if lowerStr n.label = lowerStr lab then
      (if n.status = NodeStatus.potential ∧ cstatus = NodeStatus.active then
        { n with status := NodeStatus.active }
      else n) :: ns
    else
      n :: upgradeFirst lab cstatus ns

/-- The node created for an unmatched candidate (src/App.tsx lines 87–93):
`{ id: n.label, label: n.label, type: n.type, status: n.status, group: 2 }`.
No `description` property is placed on the object. -/
def newNodeOf (c : Candidate) : MindMapNode :=
  { id := c.label, label := c.label, group := 2, type := c.type.toNodeType,
    status := c.status, description := none }

/-- The direction-insensitive link-existence check (src/App.tsx lines 102–105). -/
def linkExists (links : List MindMapLink) (a b : String) : Bool :=
  links.any (fun l =>
    (l.source == a && l.target == b) || (l.source == b && l.target == a))

/-- The parent resolution for a newly created node (src/App.tsx lines
97–98): first case-insensitive label match for the candidate's `parent`
over the extended node list, falling back to the first node labelled
exactly `Context` (`find(...) || find(ex => ex.label === 'Context')`). -/
def resolveParent? (nodes' : List MindMapNode) (parentLabel : String) :
    Option MindMapNode :=
  match firstMatch? nodes' parentLabel with
  | some p => some p
  | none => findRoot? nodes'

/-- The link update for a newly created node (src/App.tsx lines 96–109):
if a parent resolves, append `parent→new` unless an equivalent link exists
in either direction; otherwise leave the links unchanged. -/
def linksAfterCreate (links : List MindMapLink) (nodes' : List MindMapNode)
    (newId : String) (parentLabel : String) : List MindMapLink :=
  match resolveParent? nodes' parentLabel with
  | none => links
  | some p =>
    if linkExists links p.id newId then links
    else links ++ [{ source := p.id, target := newId }]

/-- One iteration of the `updates.nodes.forEach` body in `triggerGraphUpdate`
(src/App.tsx lines 73–111), acting on the accumulated node/link collections:
if some node's label matches the candidate's case-insensitively, the first
such node is upgraded in place (potential → active only) and the links are
untouched; otherwise a new node is appended and the links updated per
`linksAfterCreate`. -/
def mergeStep (s : GraphState) (c : Candidate) : GraphState :=
  match firstMatch? s.nodes c.label with
  | some _ => { s with nodes := upgradeFirst c.label c.status s.nodes }
  | none =>
    let nodes' := s.nodes ++ [newNodeOf c]
    { nodes := nodes',
      links := linksAfterCreate s.links nodes' (newNodeOf c).id c.parent }

/-- The full merge of a candidate list into the graph state: the
`updates.nodes.forEach` loop of `triggerGraphUpdate` (src/App.tsx
lines 69–114).  (The surrounding `if (updates.nodes && updates.nodes.length
> 0)` guard skips the state update for an empty list, which coincides with
the fold being the identity there.) -/
def merge (s : GraphState) (cands : List Candidate) : GraphState :=
  cands.foldl mergeStep s

/-- A whole session: a sequence of `triggerGraphUpdate` merges applied to
the evolving state. -/
def mergeSeq (s : GraphState) (css : List (List Candidate)) : GraphState :=
  css.foldl merge s

/-- Per-node effect of a merge on an already-present node: identity fields
are untouched and the status either stays what it was or is promoted
potential → active. -/
def statusUp (n n' : MindMapNode) : Prop :=
  n'.id = n.id ∧ n'.label = n.label ∧ n'.group = n.group ∧ n'.type = n.type ∧
  n'.description = n.description ∧
  (n'.status = n.status ∨
    (n.status = NodeStatus.potential ∧ n'.status = NodeStatus.active))

/-- List-level evolution across merges: the original nodes survive at their
positions (related pointwise by `statusUp`); merges only append new nodes
after them. -/
def evolves (old new : List MindMapNode) : Prop :=
  List.Forall₂ statusUp old (new.take old.length)

/-- Case-insensitive distinctness of all node labels: no two nodes whose
labels agree after lowercasing. -/
def labelsCIDistinct (nodes : List MindMapNode) : Prop :=
  (nodes.map fun n => n.label).Pairwise fun a b => lowerStr a ≠ lowerStr b

instance (nodes : List MindMapNode) : Decidable (labelsCIDistinct nodes) := by
  unfold labelsCIDistinct
  infer_instance

/-- A string occurs as the id of some node in the list. -/
def idPresent (nodes : List MindMapNode) (x : String) : Prop :=
  ∃ n ∈ nodes, n.id = x

/-- Referential integrity of the links: every link endpoint is the id of a
node present in the node collection. -/
def linkEndpointsPresent (s : GraphState) : Prop :=
  ∀ l ∈ s.links, idPresent s.nodes l.source ∧ idPresent s.nodes l.target

/-- A candidate is settled in a node list: some node already matches its
label case-insensitively (the first match), and if the candidate is active
so is that node.  A settled candidate makes the merge body a no-op. -/
def settled (ns : List MindMapNode) (c : Candidate) : Prop :=
  ∃ n, firstMatch? ns c.label = some n ∧
    (c.status = NodeStatus.active → n.status = NodeStatus.active)

/-- Directed adjacency from the links (src/components/MindMap.tsx lines
37–43): `adj[s]` collects, in link order, the targets of the links whose
source is `s`.  (The source's `typeof l.source === 'object'` unwrapping is
the d3 in-place substitution guard; in the store the endpoints are plain
strings.) -/
def adjOf (links : List MindMapLink) (s : String) : List String :=
  (links.filter fun l => l.source == s).map fun l => l.target

/-- JavaScript record update `m[k] = v` on a `Record<string, number>`. -/
def recUpdate (m : String → Option Nat) (k : String) (v : Nat) :
    String → Option Nat :=
  fun x => if x = k then some v else m x

/-- The inner `adj[id].forEach` of the BFS (src/components/MindMap.tsx
lines 54–61): each not-yet-visited child is added to `visited`, assigned
depth `d + 1`, and pushed on the back of the queue; visited children are
skipped.  Returns the updated queue, visited set and depth record. -/
def processChildren (d : Nat) :
    List String → List (String × Nat) → List String → (String → Option Nat) →
      List (String × Nat) × List String × (String → Option Nat)
  | [], queue, visited, depths => (queue, visited, depths)
  | cid :: rest, queue, visited, depths =>
    if cid ∈ visited then
      processChildren d rest queue visited depths
    else
      processChildren d rest (queue ++ [(cid, d + 1)]) (cid :: visited)
        (recUpdate depths cid (d + 1))

/-- The `while (queue.length > 0)` loop of the BFS (src/components/
MindMap.tsx lines 51–63).  Each iteration shifts the queue head `(id, d)`,
raises `maxDepth` to `d`, and walks `adj[id]`.  The loop in the source has
no iteration cap; it terminates because every enqueue after the initial one
consumes a distinct link, so it runs at most `links.length + 1` iterations
from the start configuration.  The `fuel` parameter makes that bound
explicit; `bfsAux_correct` below proves the queue is exhausted (so the
fuel branch is never what ends the run) whenever the invariants and the
fuel accounting hold, as they do for `computeDepths`. -/
def bfsAux (adj : String → List String) :
    Nat → List (String × Nat) → List String → (String → Option Nat) → Nat →
      (String → Option Nat) × Nat
  | 0, _, _, depths, maxD => (depths, maxD)
  | _ + 1, [], _, depths, maxD => (depths, maxD)
  | fuel + 1, (id, d) :: rest, visited, depths, maxD =>
    let r := processChildren d (adj id) rest visited depths
    bfsAux adj fuel r.1 r.2.1 r.2.2 (max maxD d)

/-- Result of `computeDepths`: the `{ depths, maxDepth }` object returned
at src/components/MindMap.tsx line 64. -/
structure DepthResult where
  depths : String → Option Nat
  maxDepth : Nat

/-- `computeDepths` (src/components/MindMap.tsx lines 33–65): builds the
adjacency map from the links, then runs the BFS seeded with the queue
`[{id: 'Context', d: 0}]`, `depths['Context'] = 0`, `visited =
{'Context'}` and `maxDepth = 0`.  The node list parameter is accepted but,
exactly as in the source, never consulted. -/
def computeDepths (nodeList : List MindMapNode) (linkList : List MindMapLink) :
    DepthResult :=
  let r := bfsAux (adjOf linkList) (linkList.length + 1) [("Context", 0)]
    ["Context"] (recUpdate (fun _ => none) "Context" 0) 0
  { depths := r.1, maxDepth := r.2 }

/-- The depth the layout reads for a node: `depths[n.id] ?? 0`
(src/components/MindMap.tsx lines 124 and 177) — nodes without an entry
(unreached by the BFS) default to 0. -/
def nodeDepth (r : DepthResult) (id : String) : Nat := (r.depths id).getD 0

/-- A directed edge of the link digraph: some link from `u` to `v`. -/
def Edge (links : List MindMapLink) (u v : String) : Prop :=
  ∃ l ∈ links, l.source = u ∧ l.target = v

/-- `Reaches links v k`: the root id `Context` reaches `v` in exactly `k`
directed steps along the links; the BFS distance of `v` is the least such
`k`. -/
inductive Reaches (links : List MindMapLink) : String → Nat → Prop
  | refl : Reaches links "Context" 0
  | step {u v : String} {k : Nat} : Reaches links u k → Edge links u v →
      Reaches links v (k + 1)

/-- Invariant of the BFS at the top of each `while` iteration, over the
queue, visited set, depth record and running maximum. -/
structure BfsInv (links : List MindMapLink) (q : List (String × Nat))
    (vis : List String) (dep : String → Option Nat) (maxD : Nat) : Prop where
  sound : ∀ v d, dep v = some d → Reaches links v d
  root_dep : dep "Context" = some 0
  vis_iff : ∀ v, v ∈ vis ↔ (dep v).isSome
  queue_dep : ∀ p ∈ q, dep p.1 = some p.2
  closure : ∀ u du, dep u = some du → (u, du) ∈ q ∨
    ∀ v ∈ adjOf links u, ∃ dv, dep v = some dv ∧ dv ≤ du + 1
  sorted : q.Pairwise fun a b => a.2 ≤ b.2
  twoLevel : ∀ a ∈ q, ∀ b ∈ q, a.2 ≤ b.2 + 1
  depBound : ∀ v dv, dep v = some dv → ∀ b ∈ q, dv ≤ b.2 + 1
  maxBound : ∀ v dv, dep v = some dv → (v, dv) ∈ q ∨ dv ≤ maxD
  maxWit : ∃ v, dep v = some maxD
  visNodup : vis.Nodup
  visSub : vis ⊆ "Context" :: links.map fun l => l.target

/-- What the BFS state satisfies once the queue is exhausted. -/
structure BfsFinal (links : List MindMapLink) (dep : String → Option Nat)
    (maxD : Nat) : Prop where
  sound : ∀ v d, dep v = some d → Reaches links v d
  root_dep : dep "Context" = some 0
  closure : ∀ u du, dep u = some du →
    ∀ v ∈ adjOf links u, ∃ dv, dep v = some dv ∧ dv ≤ du + 1
  le_max : ∀ v dv, dep v = some dv → dv ≤ maxD
  max_wit : ∃ v, dep v = some maxD

/-- The `while (foundParent && iterations < 100)` loop of `getPathToRoot`
(src/components/MindMap.tsx lines 74–90), with `fuel` the remaining
allowed iterations (`100 - iterations`).  Each iteration finds the first
link whose target is the current id; if none exists, or its source is
already in the path (cycle guard), the loop ends; otherwise the source is
appended to the path and becomes the current id. -/
def pathAux (links : List MindMapLink) :
    Nat → List String → String → List String
  | 0, path, _ => path
  | fuel + 1, path, currentId =>
    match links.find? fun l => l.target == currentId with
    | none => path
    | some l =>
      if l.source ∈ path then path
      else pathAux links fuel (path ++ [l.source]) l.source

/-- `getPathToRoot` (src/components/MindMap.tsx lines 68–92): the
accumulated path set (a JS `Set` in insertion order, modelled as a list
used through membership), seeded with the queried id, after at most 100
loop iterations. -/
def getPathToRoot (targetId : String) (currentLinks : List MindMapLink) :
    List String :=
  pathAux currentLinks 100 [targetId] targetId

/-- A directed path of `n` edge-steps from one id to another along the
links. -/
inductive PathFrom (links : List MindMapLink) : String → String → Nat → Prop
  | refl (u : String) : PathFrom links u u 0
  | step {u v w : String} {n : Nat} : PathFrom links u v n →
      Edge links v w → PathFrom links u w (n + 1)

/-- The link digraph has no directed cycle. -/
def Acyclic (links : List MindMapLink) : Prop :=
  ∀ v n, 1 ≤ n → ¬PathFrom links v v n

/-- The deterministic first-found parent chain walked by `getPathToRoot`:
`ChainList links cur cl` holds when, starting from `cur`, the successive
"first link whose target is the current id" sources are exactly `cl`,
ending at the root id `Context`. -/
inductive ChainList (links : List MindMapLink) : String → List String → Prop
  | nil : ChainList links "Context" []
  | cons {cur : String} {l : MindMapLink} {rest : List String} :
      links.find? (fun l' => l'.target == cur) = some l →
      ChainList links l.source rest → ChainList links cur (l.source :: rest)

/-- The sources of links not yet in the path: an upper bound on the number
of loop iterations `getPathToRoot` can still perform, since every
performed iteration appends a fresh link source. -/
def remCount (links : List MindMapLink) (path : List String) : Nat :=
  ((links.map fun l => l.source).dedup.filter fun x => decide (x ∉ path)).length

/-- A cached layout position and velocity (src/components/MindMap.tsx line
30: `nodePositions: Map<string, {x, y, vx, vy}>`).  Coordinates are
modelled as rationals; the initializations at issue (`containerWidth / 2`,
`depth * Y_SPACING + PADDING_TOP`, `0`) are exact in JavaScript float
arithmetic at these magnitudes. -/
structure CachedPos where
  x : ℚ
  y : ℚ
  vx : ℚ
  vy : ℚ
deriving DecidableEq

/-- A prepared simulation node: the spread `{ ...n, x, y, vx, vy }` built
by the data-preparation step (src/components/MindMap.tsx lines 122–133). -/
structure SimNode where
  node : MindMapNode
  x : ℚ
  y : ℚ
  vx : ℚ
  vy : ℚ
deriving DecidableEq

/-- `Y_SPACING` (src/components/MindMap.tsx line 110): vertical space
between tiers. -/
def Y_SPACING : ℚ := 120

/-- `PADDING_TOP` (src/components/MindMap.tsx line 112). -/
def PADDING_TOP : ℚ := 60

/-- The `simulationNodes` preparation (src/components/MindMap.tsx lines
122–133): each node keeps its cached position and velocity when
`nodePositions` has its id; otherwise it starts at the horizontal center
`containerWidth / 2`, at its tier height `depth * Y_SPACING + PADDING_TOP`
with `depth = depths[n.id] ?? 0` from `computeDepths`, and zero
velocity. -/
def simulationNodes (nodes : List MindMapNode) (links : List MindMapLink)
    (cache : String → Option CachedPos) (containerWidth : ℚ) :
    List SimNode :=
  let dr := computeDepths nodes links
  nodes.map fun n =>
    match cache n.id with
    | some oldPos =>
      { node := n, x := oldPos.x, y := oldPos.y,
        vx := oldPos.vx, vy := oldPos.vy }
    | none =>
      { node := n, x := containerWidth / 2,
        y := (nodeDepth dr n.id : ℚ) * Y_SPACING + PADDING_TOP,
        vx := 0, vy := 0 }

/-- Scenario A of the spec (§8): merging an active `Travel` under `Context`
into the initial graph creates the node and the link `Context→Travel`. -/
theorem scenarioA :
    merge initialGraph
      [{ label := "Travel", type := .concept, status := .active,
         parent := "Context", description := "d" }] =
    { nodes := [{ id := "Context", label := "Context", group := 1, type := .root,
                  status := .active, description := none },
                { id := "Travel", label := "Travel", group := 2, type := .concept,
                  status := .active, description := none }],
      links := [{ source := "Context", target := "Travel" }] } := by
  decide

/-- Scenario B of the spec (§8): an active candidate `travel` promotes an
existing potential `Travel` in place; no duplicate node, links unchanged. -/
theorem scenarioB :
    merge
      { nodes := [{ id := "Context", label := "Context", group := 1, type := .root,
                    status := .active, description := none },
                  { id := "Travel", label := "Travel", group := 2, type := .concept,
                    status := .potential, description := none }],
        links := [{ source := "Context", target := "Travel" }] }
      [{ label := "travel", type := .concept, status := .active,
         parent := "Context", description := "d" }] =
    { nodes := [{ id := "Context", label := "Context", group := 1, type := .root,
                  status := .active, description := none },
                { id := "Travel", label := "Travel", group := 2, type := .concept,
                  status := .active, description := none }],
      links := [{ source := "Context", target := "Travel" }] } := by
  decide

/-- Scenario C of the spec (§8): a candidate with an unknown parent label
falls back to linking under the root. -/
theorem scenarioC :
    merge
      { nodes := [{ id := "Context", label := "Context", group := 1, type := .root,
                    status := .active, description := none },
                  { id := "Food", label := "Food", group := 2, type := .concept,
                    status := .active, description := none }],
        links := [{ source := "Context", target := "Food" }] }
      [{ label := "Recipes", type := .concept, status := .potential,
         parent := "Unknown", description := "d" }] =
    { nodes := [{ id := "Context", label := "Context", group := 1, type := .root,
                  status := .active, description := none },
                { id := "Food", label := "Food", group := 2, type := .concept,
                  status := .active, description := none },
                { id := "Recipes", label := "Recipes", group := 2, type := .concept,
                  status := .potential, description := none }],
      links := [{ source := "Context", target := "Food" },
                { source := "Context", target := "Recipes" }] } := by
  decide

/-- Scenario D of the spec (§8): a potential candidate never downgrades an
already active node. -/
theorem scenarioD :
    merge
      { nodes := [{ id := "Context", label := "Context", group := 1, type := .root,
                    status := .active, description := none },
                  { id := "Travel", label := "Travel", group := 2, type := .concept,
                    status := .active, description := none }],
        links := [{ source := "Context", target := "Travel" }] }
      [{ label := "Travel", type := .concept, status := .potential,
         parent := "Context", description := "d" }] =
    { nodes := [{ id := "Context", label := "Context", group := 1, type := .root,
                  status := .active, description := none },
                { id := "Travel", label := "Travel", group := 2, type := .concept,
                  status := .active, description := none }],
      links := [{ source := "Context", target := "Travel" }] } := by
  decide

theorem statusUp_refl (n : MindMapNode) : statusUp n n :=
  ⟨rfl, rfl, rfl, rfl, rfl, Or.inl rfl⟩

theorem statusUp_trans {a b c : MindMapNode} (hab : statusUp a b)
    (hbc : statusUp b c) : statusUp a c := by
  obtain ⟨i1, l1, g1, t1, d1, s1⟩ := hab
  obtain ⟨i2, l2, g2, t2, d2, s2⟩ := hbc
  refine ⟨i2.trans i1, l2.trans l1, g2.trans g1, t2.trans t1, d2.trans d1, ?_⟩
  rcases s1 with h1 | ⟨hp1, ha1⟩ <;> rcases s2 with h2 | ⟨hp2, ha2⟩
  · exact Or.inl (h2.trans h1)
  · exact Or.inr ⟨h1 ▸ hp2, ha2⟩
  · exact Or.inr ⟨hp1, h2.trans ha1⟩
  · exact absurd (ha1.symm.trans hp2) (by decide)

theorem forall₂_statusUp_refl : ∀ ns : List MindMapNode, List.Forall₂ statusUp ns ns
  | [] => List.Forall₂.nil
  | _ :: ns => List.Forall₂.cons (statusUp_refl _) (forall₂_statusUp_refl ns)

theorem forall₂_statusUp_trans :
    ∀ {a b c : List MindMapNode}, List.Forall₂ statusUp a b →
      List.Forall₂ statusUp b c → List.Forall₂ statusUp a c := by
  intro a b c hab
  induction hab generalizing c with
  | nil => intro hbc; cases hbc; exact List.Forall₂.nil
  | cons h _ ih =>
    intro hbc
    cases hbc with
    | cons h2 t2 => exact List.Forall₂.cons (statusUp_trans h h2) (ih t2)

theorem upgradeFirst_forall₂ (lab : String) (st : NodeStatus) :
    ∀ ns : List MindMapNode, List.Forall₂ statusUp ns (upgradeFirst lab st ns) := by
  intro ns
  induction ns with
  | nil => exact List.Forall₂.nil
  | cons n ns ih =>
    unfold upgradeFirst
    by_cases h : lowerStr n.label = lowerStr lab
    · rw [if_pos h]
      refine List.Forall₂.cons ?_ (forall₂_statusUp_refl ns)
      by_cases h2 : n.status = NodeStatus.potential ∧ st = NodeStatus.active
      · rw [if_pos h2]; exact ⟨rfl, rfl, rfl, rfl, rfl, Or.inr ⟨h2.1, rfl⟩⟩
      · rw [if_neg h2]; exact statusUp_refl n
    · rw [if_neg h]
      exact List.Forall₂.cons (statusUp_refl n) ih

theorem evolves_refl (ns : List MindMapNode) : evolves ns ns := by
  unfold evolves
  rw [List.take_length]
  exact forall₂_statusUp_refl ns

theorem evolves_trans {a b c : List MindMapNode} (hab : evolves a b)
    (hbc : evolves b c) : evolves a c := by
  unfold evolves at *
  have hlen : a.length ≤ b.length := by
    have h := hab.length_eq
    rw [List.length_take] at h
    omega
  have h2 := List.forall₂_take a.length hbc
  rw [List.take_take, min_eq_left hlen] at h2
  exact forall₂_statusUp_trans hab h2

theorem mergeStep_nodes_of_found {s : GraphState} {c : Candidate} {n : MindMapNode}
    (hm : firstMatch? s.nodes c.label = some n) :
    mergeStep s c = { s with nodes := upgradeFirst c.label c.status s.nodes } := by
  unfold mergeStep
  rw [hm]

theorem mergeStep_of_not_found {s : GraphState} {c : Candidate}
    (hm : firstMatch? s.nodes c.label = none) :
    mergeStep s c =
      { nodes := s.nodes ++ [newNodeOf c],
        links := linksAfterCreate s.links (s.nodes ++ [newNodeOf c])
          (newNodeOf c).id c.parent } := by
  unfold mergeStep
  rw [hm]

theorem mergeStep_evolves (s : GraphState) (c : Candidate) :
    evolves s.nodes (mergeStep s c).nodes := by
  cases hm : firstMatch? s.nodes c.label with
  | some n =>
    rw [mergeStep_nodes_of_found hm]
    unfold evolves
    have h := upgradeFirst_forall₂ c.label c.status s.nodes
    have hlen : s.nodes.length = (upgradeFirst c.label c.status s.nodes).length :=
      h.length_eq
    rw [hlen, List.take_length]
    exact h
  | none =>
    rw [mergeStep_of_not_found hm]
    unfold evolves
    rw [List.take_left]
    exact forall₂_statusUp_refl s.nodes

theorem merge_evolves : ∀ (cands : List Candidate) (s : GraphState),
    evolves s.nodes (merge s cands).nodes
  | [], _ => evolves_refl _
  | c :: cs, s =>
    evolves_trans (mergeStep_evolves s c) (merge_evolves cs (mergeStep s c))

theorem mergeSeq_evolves : ∀ (css : List (List Candidate)) (s : GraphState),
    evolves s.nodes (mergeSeq s css).nodes
  | [], _ => evolves_refl _
  | cs :: css, s =>
    evolves_trans (merge_evolves cs s) (mergeSeq_evolves css (merge s cs))

theorem evolves_get? {old new : List MindMapNode} (h : evolves old new)
    {i : Nat} {n : MindMapNode} (hi : old.get? i = some n) :
    ∃ n', new.get? i = some n' ∧ statusUp n n' := by
  obtain ⟨hlen, hR⟩ := List.forall₂_iff_get.mp h
  have hilt : i < old.length := by
    rcases List.get?_eq_some.mp hi with ⟨h', _⟩
    exact h'
  have hilt2 : i < (new.take old.length).length := hlen ▸ hilt
  refine ⟨(new.take old.length).get ⟨i, hilt2⟩, ?_, ?_⟩
  · rw [← List.get?_take hilt]
    exact List.get?_eq_get hilt2
  · have hs := hR i hilt hilt2
    rcases List.get?_eq_some.mp hi with ⟨h', hg⟩
    rwa [hg] at hs

/-- Claim C2: node status is monotonic.  Across any sequence of merges from
any state, each node present before keeps its position, id and label, its
status either stays what it was or moves potential → active, and a node
that is active before a merge is never potential after it.  (Every merge of
a sequence starts from some such state, so this covers each individual
merge as well; `mergeSeq s [cands]` is a single merge.) -/
theorem merge_status_monotonic (s : GraphState) (css : List (List Candidate))
    (i : Nat) (n : MindMapNode) (hi : s.nodes.get? i = some n) :
    ∃ n', (mergeSeq s css).nodes.get? i = some n' ∧ n'.id = n.id ∧
      n'.label = n.label ∧
      (n'.status = n.status ∨
        (n.status = NodeStatus.potential ∧ n'.status = NodeStatus.active)) ∧
      (n.status = NodeStatus.active → n'.status = NodeStatus.active) := by
  obtain ⟨n', h1, hid, hlab, _, _, _, hst⟩ :=
    evolves_get? (mergeSeq_evolves css s) hi
  refine ⟨n', h1, hid, hlab, hst, ?_⟩
  intro ha
  rcases hst with h | ⟨_, hact⟩
  · exact h.trans ha
  · exact hact

/-- Witness for `merge_status_monotonic`: the root node of the initial
graph across one concrete merge. -/
theorem merge_status_monotonic_witness :
    ∃ n', (mergeSeq initialGraph
        [[{ label := "Travel", type := .concept, status := .potential,
            parent := "Context", description := "hint" }]]).nodes.get? 0 =
          some n' ∧
      n'.id = rootNode.id ∧ n'.label = rootNode.label ∧
      (n'.status = rootNode.status ∨
        (rootNode.status = NodeStatus.potential ∧
          n'.status = NodeStatus.active)) ∧
      (rootNode.status = NodeStatus.active →
        n'.status = NodeStatus.active) :=
  merge_status_monotonic initialGraph
    [[{ label := "Travel", type := .concept, status := .potential,
        parent := "Context", description := "hint" }]] 0 rootNode (by decide)

theorem upgradeFirst_map_label (lab : String) (st : NodeStatus) :
    ∀ ns : List MindMapNode,
      (upgradeFirst lab st ns).map (fun n => n.label) =
        ns.map (fun n => n.label) := by
  intro ns
  induction ns with
  | nil => rfl
  | cons n ns ih =>
    unfold upgradeFirst
    by_cases h : lowerStr n.label = lowerStr lab
    · rw [if_pos h]
      by_cases h2 : n.status = NodeStatus.potential ∧ st = NodeStatus.active
      · rw [if_pos h2]; rfl
      · rw [if_neg h2]
    · rw [if_neg h]
      simp only [List.map_cons, ih]

theorem upgradeFirst_map_id (lab : String) (st : NodeStatus) :
    ∀ ns : List MindMapNode,
      (upgradeFirst lab st ns).map (fun n => n.id) =
        ns.map (fun n => n.id) := by
  intro ns
  induction ns with
  | nil => rfl
  | cons n ns ih =>
    unfold upgradeFirst
    by_cases h : lowerStr n.label = lowerStr lab
    · rw [if_pos h]
      by_cases h2 : n.status = NodeStatus.potential ∧ st = NodeStatus.active
      · rw [if_pos h2]; rfl
      · rw [if_neg h2]
    · rw [if_neg h]
      simp only [List.map_cons, ih]

theorem firstMatch?_eq_none_iff {ns : List MindMapNode} {lab : String} :
    firstMatch? ns lab = none ↔
      ∀ n ∈ ns, lowerStr n.label ≠ lowerStr lab := by
  induction ns with
  | nil => simp [firstMatch?]
  | cons n ns ih =>
    unfold firstMatch?
    by_cases h : lowerStr n.label = lowerStr lab
    · simp [h]
    · simp [h, ih]

theorem firstMatch?_mem {ns : List MindMapNode} {lab : String}
    {n : MindMapNode} (h : firstMatch? ns lab = some n) :
    n ∈ ns ∧ lowerStr n.label = lowerStr lab := by
  induction ns with
  | nil => simp [firstMatch?] at h
  | cons m ms ih =>
    unfold firstMatch? at h
    by_cases hm : lowerStr m.label = lowerStr lab
    · rw [if_pos hm] at h
      injection h with h2
      subst h2
      exact ⟨List.mem_cons_self m ms, hm⟩
    · rw [if_neg hm] at h
      obtain ⟨h1, h2⟩ := ih h
      exact ⟨List.mem_cons_of_mem m h1, h2⟩

theorem findRoot?_mem {ns : List MindMapNode} {n : MindMapNode}
    (h : findRoot? ns = some n) : n ∈ ns ∧ n.label = "Context" := by
  induction ns with
  | nil => simp [findRoot?] at h
  | cons m ms ih =>
    unfold findRoot? at h
    by_cases hm : m.label = "Context"
    · rw [if_pos hm] at h
      injection h with h2
      subst h2
      exact ⟨List.mem_cons_self m ms, hm⟩
    · rw [if_neg hm] at h
      obtain ⟨h1, h2⟩ := ih h
      exact ⟨List.mem_cons_of_mem m h1, h2⟩

theorem resolveParent?_mem {ns : List MindMapNode} {lab : String}
    {p : MindMapNode} (h : resolveParent? ns lab = some p) : p ∈ ns := by
  unfold resolveParent? at h
  cases hm : firstMatch? ns lab with
  | some q => rw [hm] at h; cases h; exact (firstMatch?_mem hm).1
  | none => rw [hm] at h; exact (findRoot?_mem h).1

theorem mergeStep_labelsCIDistinct {s : GraphState} {c : Candidate}
    (h : labelsCIDistinct s.nodes) : labelsCIDistinct (mergeStep s c).nodes := by
  cases hm : firstMatch? s.nodes c.label with
  | some n =>
    rw [mergeStep_nodes_of_found hm]
    unfold labelsCIDistinct at *
    rw [upgradeFirst_map_label]
    exact h
  | none =>
    rw [mergeStep_of_not_found hm]
    unfold labelsCIDistinct at *
    rw [List.map_append, List.pairwise_append]
    refine ⟨h, by simp, ?_⟩
    intro a ha b hb
    simp only [newNodeOf, List.map_cons, List.map_nil, List.mem_singleton] at hb
    subst hb
    rcases List.mem_map.mp ha with ⟨m, hmem, rfl⟩
    exact firstMatch?_eq_none_iff.mp hm m hmem

/-- Claim C3: case-insensitive dedup.  If a state's node labels are pairwise
distinct case-insensitively, they remain so after merging any candidate
list; in particular candidates labelled `Travel` and `travel` can never
yield two separate nodes. -/
theorem merge_dedup_case_insensitive : ∀ (cands : List Candidate)
    (s : GraphState), labelsCIDistinct s.nodes →
    labelsCIDistinct (merge s cands).nodes
  | [], _, h => h
  | c :: cs, s, h =>
    merge_dedup_case_insensitive cs (mergeStep s c) (mergeStep_labelsCIDistinct h)

/-- Witness for `merge_dedup_case_insensitive`: merging both `Travel` and
`travel` into the initial graph keeps the labels case-insensitively
distinct (only one node is created for the pair). -/
theorem merge_dedup_case_insensitive_witness :
    labelsCIDistinct (merge initialGraph
      [{ label := "Travel", type := .concept, status := .potential,
         parent := "Context", description := "a" },
       { label := "travel", type := .concept, status := .active,
         parent := "Context", description := "b" }]).nodes :=
  merge_dedup_case_insensitive
    [{ label := "Travel", type := .concept, status := .potential,
       parent := "Context", description := "a" },
     { label := "travel", type := .concept, status := .active,
       parent := "Context", description := "b" }]
    initialGraph (by decide)

theorem idPresent_iff_mem_map {ns : List MindMapNode} {x : String} :
    idPresent ns x ↔ x ∈ ns.map fun n => n.id := by
  simp [idPresent, List.mem_map]

theorem idPresent_upgradeFirst {lab : String} {st : NodeStatus}
    {ns : List MindMapNode} {x : String} (h : idPresent ns x) :
    idPresent (upgradeFirst lab st ns) x := by
  rw [idPresent_iff_mem_map] at h ⊢
  rwa [upgradeFirst_map_id]

theorem idPresent_append_left {ns ms : List MindMapNode} {x : String}
    (h : idPresent ns x) : idPresent (ns ++ ms) x := by
  obtain ⟨n, hn, hx⟩ := h
  exact ⟨n, List.mem_append_left ms hn, hx⟩

theorem linksAfterCreate_of_none {links : List MindMapLink}
    {nodes' : List MindMapNode} {newId plab : String}
    (h : resolveParent? nodes' plab = none) :
    linksAfterCreate links nodes' newId plab = links := by
  unfold linksAfterCreate
  rw [h]

theorem linksAfterCreate_of_some {links : List MindMapLink}
    {nodes' : List MindMapNode} {newId plab : String} {p : MindMapNode}
    (h : resolveParent? nodes' plab = some p) :
    linksAfterCreate links nodes' newId plab =
      if linkExists links p.id newId = true then links
      else links ++ [{ source := p.id, target := newId }] := by
  unfold linksAfterCreate
  rw [h]

theorem mem_linksAfterCreate {links : List MindMapLink}
    {nodes' : List MindMapNode} {newId plab : String} {l : MindMapLink}
    (h : l ∈ linksAfterCreate links nodes' newId plab) :
    l ∈ links ∨ ∃ p, resolveParent? nodes' plab = some p ∧
      l = { source := p.id, target := newId } := by
  cases hp : resolveParent? nodes' plab with
  | none =>
    rw [linksAfterCreate_of_none hp] at h
    exact Or.inl h
  | some p =>
    rw [linksAfterCreate_of_some hp] at h
    by_cases he : linkExists links p.id newId = true
    · rw [if_pos he] at h
      exact Or.inl h
    · rw [if_neg he] at h
      rcases List.mem_append.mp h with h | h
      · exact Or.inl h
      · exact Or.inr ⟨p, rfl, List.mem_singleton.mp h⟩

theorem mergeStep_linkEndpointsPresent {s : GraphState} {c : Candidate}
    (h : linkEndpointsPresent s) : linkEndpointsPresent (mergeStep s c) := by
  cases hm : firstMatch? s.nodes c.label with
  | some n =>
    rw [mergeStep_nodes_of_found hm]
    intro l hl
    obtain ⟨h1, h2⟩ := h l hl
    exact ⟨idPresent_upgradeFirst h1, idPresent_upgradeFirst h2⟩
  | none =>
    rw [mergeStep_of_not_found hm]
    intro l hl
    rcases mem_linksAfterCreate hl with hl | ⟨p, hp, rfl⟩
    · obtain ⟨h1, h2⟩ := h l hl
      exact ⟨idPresent_append_left h1, idPresent_append_left h2⟩
    · constructor
      · exact ⟨p, resolveParent?_mem hp, rfl⟩
      · exact ⟨newNodeOf c,
          List.mem_append_right s.nodes (List.mem_singleton_self _), rfl⟩

theorem merge_linkEndpointsPresent : ∀ (cands : List Candidate)
    (s : GraphState), linkEndpointsPresent s →
    linkEndpointsPresent (merge s cands)
  | [], _, h => h
  | c :: cs, s, h =>
    merge_linkEndpointsPresent cs (mergeStep s c)
      (mergeStep_linkEndpointsPresent h)

/-- Claim C10: link referential integrity.  Starting from the initial state
(root node only, no links), after any sequence of merges every link's
source and target are ids of nodes present in the node collection. -/
theorem links_endpoints_present : ∀ css : List (List Candidate),
    linkEndpointsPresent (mergeSeq initialGraph css) := by
  have hstep : ∀ (css : List (List Candidate)) (s : GraphState),
      linkEndpointsPresent s → linkEndpointsPresent (mergeSeq s css) := by
    intro css
    induction css with
    | nil => intro s h; exact h
    | cons cs css ih =>
      intro s h
      exact ih (merge s cs) (merge_linkEndpointsPresent cs s h)
  intro css
  refine hstep css initialGraph ?_
  intro l hl
  simp [initialGraph] at hl

/-- Witness for `links_endpoints_present`: the link created by one concrete
merge has both endpoints among the node ids. -/
theorem links_endpoints_present_witness :
    idPresent (mergeSeq initialGraph
      [[{ label := "Travel", type := .concept, status := .active,
          parent := "Context", description := "hint" }]]).nodes "Context" ∧
    idPresent (mergeSeq initialGraph
      [[{ label := "Travel", type := .concept, status := .active,
          parent := "Context", description := "hint" }]]).nodes "Travel" :=
  links_endpoints_present
    [[{ label := "Travel", type := .concept, status := .active,
        parent := "Context", description := "hint" }]]
    { source := "Context", target := "Travel" } (by decide)

theorem upgradeFirst_eq_self {lab : String} {st : NodeStatus}
    {ns : List MindMapNode} {n : MindMapNode}
    (hm : firstMatch? ns lab = some n)
    (hc : ¬(n.status = NodeStatus.potential ∧ st = NodeStatus.active)) :
    upgradeFirst lab st ns = ns := by
  induction ns with
  | nil => simp [firstMatch?] at hm
  | cons m ms ih =>
    unfold firstMatch? at hm
    unfold upgradeFirst
    by_cases h : lowerStr m.label = lowerStr lab
    · rw [if_pos h] at hm
      injection hm with hm
      subst hm
      rw [if_pos h, if_neg hc]
    · rw [if_neg h] at hm
      rw [if_neg h, ih hm]

theorem mergeStep_of_settled {s : GraphState} {c : Candidate}
    (h : settled s.nodes c) : mergeStep s c = s := by
  obtain ⟨n, hm, himp⟩ := h
  rw [mergeStep_nodes_of_found hm]
  have hc : ¬(n.status = NodeStatus.potential ∧ c.status = NodeStatus.active) := by
    rintro ⟨hpot, hact⟩
    rw [himp hact] at hpot
    exact absurd hpot (by decide)
  rw [upgradeFirst_eq_self hm hc]

theorem firstMatch?_append_some {ns ms : List MindMapNode} {lab : String}
    {n : MindMapNode} (h : firstMatch? ns lab = some n) :
    firstMatch? (ns ++ ms) lab = some n := by
  induction ns with
  | nil => simp [firstMatch?] at h
  | cons m mss ih =>
    rw [List.cons_append]
    unfold firstMatch? at h
    simp only [firstMatch?]
    by_cases hc : lowerStr m.label = lowerStr lab
    · rwa [if_pos hc] at h ⊢
    · rw [if_neg hc] at h ⊢
      exact ih h

theorem firstMatch?_append_none {ns ms : List MindMapNode} {lab : String}
    (h : firstMatch? ns lab = none) :
    firstMatch? (ns ++ ms) lab = firstMatch? ms lab := by
  induction ns with
  | nil => rfl
  | cons m mss ih =>
    rw [List.cons_append]
    unfold firstMatch? at h
    simp only [firstMatch?]
    by_cases hc : lowerStr m.label = lowerStr lab
    · rw [if_pos hc] at h
      cases h
    · rw [if_neg hc] at h ⊢
      exact ih h

theorem firstMatch?_upgradeFirst_self {lab : String} {st : NodeStatus}
    {ns : List MindMapNode} {n : MindMapNode}
    (hm : firstMatch? ns lab = some n) :
    firstMatch? (upgradeFirst lab st ns) lab =
      some (if n.status = NodeStatus.potential ∧ st = NodeStatus.active then
        { n with status := NodeStatus.active } else n) := by
  induction ns with
  | nil => simp [firstMatch?] at hm
  | cons m ms ih =>
    unfold firstMatch? at hm
    unfold upgradeFirst
    by_cases h : lowerStr m.label = lowerStr lab
    · rw [if_pos h] at hm
      injection hm with hm
      subst hm
      rw [if_pos h]
      by_cases h2 : m.status = NodeStatus.potential ∧ st = NodeStatus.active
      · rw [if_pos h2]
        simp [firstMatch?, h]
      · rw [if_neg h2]
        simp [firstMatch?, h]
    · rw [if_neg h] at hm
      rw [if_neg h]
      unfold firstMatch?
      rw [if_neg h]
      exact ih hm

theorem firstMatch?_forall₂ {ns ms : List MindMapNode} {lab : String}
    (hF : List.Forall₂ statusUp ns ms) {n : MindMapNode}
    (hm : firstMatch? ns lab = some n) :
    ∃ n', firstMatch? ms lab = some n' ∧ statusUp n n' := by
  induction hF with
  | nil => simp [firstMatch?] at hm
  | cons hR hT ih =>
    rename_i a b as bs
    unfold firstMatch? at hm ⊢
    by_cases h : lowerStr a.label = lowerStr lab
    · rw [if_pos h] at hm
      injection hm with hm
      subst hm
      rw [if_pos (hR.2.1 ▸ h)]
      exact ⟨b, rfl, hR⟩
    · rw [if_neg h] at hm
      rw [if_neg (fun hb => h (hR.2.1 ▸ hb))]
      exact ih hm

theorem settled_mergeStep_other {s : GraphState} {c c' : Candidate}
    (h : settled s.nodes c) : settled (mergeStep s c').nodes c := by
  obtain ⟨n, hm, himp⟩ := h
  cases hm' : firstMatch? s.nodes c'.label with
  | some m =>
    rw [mergeStep_nodes_of_found hm']
    obtain ⟨n', hm2, hs⟩ :=
      firstMatch?_forall₂ (upgradeFirst_forall₂ c'.label c'.status s.nodes) hm
    refine ⟨n', hm2, ?_⟩
    intro ha
    rcases hs.2.2.2.2.2 with h1 | ⟨_, h2⟩
    · exact h1.trans (himp ha)
    · exact h2
  | none =>
    rw [mergeStep_of_not_found hm']
    exact ⟨n, firstMatch?_append_some hm, himp⟩

theorem settled_mergeStep_self (s : GraphState) (c : Candidate) :
    settled (mergeStep s c).nodes c := by
  cases hm : firstMatch? s.nodes c.label with
  | some n =>
    rw [mergeStep_nodes_of_found hm]
    refine ⟨_, firstMatch?_upgradeFirst_self hm, ?_⟩
    intro ha
    by_cases h2 : n.status = NodeStatus.potential ∧ c.status = NodeStatus.active
    · rw [if_pos h2]
    · rw [if_neg h2]
      cases hn : n.status with
      | active => rfl
      | potential => exact absurd ⟨hn, ha⟩ h2
  | none =>
    rw [mergeStep_of_not_found hm]
    refine ⟨newNodeOf c, ?_, ?_⟩
    · rw [firstMatch?_append_none hm]
      simp [firstMatch?, newNodeOf]
    · intro ha
      exact ha

theorem settled_merge : ∀ (cands : List Candidate) (s : GraphState)
    (c : Candidate), settled s.nodes c → settled (merge s cands).nodes c
  | [], _, _, h => h
  | c' :: cs, s, c, h =>
    settled_merge cs (mergeStep s c') c (settled_mergeStep_other h)

theorem all_settled_after_merge : ∀ (cands : List Candidate) (s : GraphState),
    ∀ c ∈ cands, settled (merge s cands).nodes c := by
  intro cands
  induction cands with
  | nil => intro s c hc; cases hc
  | cons c0 cs ih =>
    intro s c hc
    rcases List.mem_cons.mp hc with rfl | hc
    · exact settled_merge cs (mergeStep s c) c (settled_mergeStep_self s c)
    · exact ih (mergeStep s c0) c hc

theorem merge_of_all_settled : ∀ (cands : List Candidate) (s : GraphState),
    (∀ c ∈ cands, settled s.nodes c) → merge s cands = s := by
  intro cands
  induction cands with
  | nil => intro s _; rfl
  | cons c0 cs ih =>
    intro s h
    have h0 : mergeStep s c0 = s := mergeStep_of_settled (h c0 (by simp))
    show merge (mergeStep s c0) cs = s
    rw [h0]
    exact ih s fun c hc => h c (List.mem_cons_of_mem c0 hc)

/-- Claim C1: the merge is idempotent.  For every graph state and candidate
list, applying `triggerGraphUpdate`'s reconciliation twice with the same
candidate list yields exactly the same node and link collections as
applying it once: the second application changes nothing. -/
theorem merge_idempotent (s : GraphState) (cands : List Candidate) :
    merge (merge s cands) cands = merge s cands :=
  merge_of_all_settled cands (merge s cands) (all_settled_after_merge cands s)

theorem upgradeFirst_decomp {lab : String} {st : NodeStatus}
    {ns : List MindMapNode} {n : MindMapNode}
    (h : firstMatch? ns lab = some n) :
    ∃ pre post, ns = pre ++ n :: post ∧
      (∀ m ∈ pre, lowerStr m.label ≠ lowerStr lab) ∧
      upgradeFirst lab st ns = pre ++
        (if n.status = NodeStatus.potential ∧ st = NodeStatus.active then
          { n with status := NodeStatus.active } else n) :: post := by
  induction ns with
  | nil => simp [firstMatch?] at h
  | cons m ms ih =>
    unfold firstMatch? at h
    by_cases hc : lowerStr m.label = lowerStr lab
    · rw [if_pos hc] at h
      injection h with h
      subst h
      refine ⟨[], ms, rfl, by simp, ?_⟩
      unfold upgradeFirst
      rw [if_pos hc]
      rfl
    · rw [if_neg hc] at h
      obtain ⟨pre, post, h1, h2, h3⟩ := ih h
      refine ⟨m :: pre, post, by rw [List.cons_append, ← h1], ?_, ?_⟩
      · intro x hx
        rcases List.mem_cons.mp hx with rfl | hx
        · exact hc
        · exact h2 x hx
      · unfold upgradeFirst
        rw [if_neg hc, h3, List.cons_append]

/-- Claim C8: promotion frame.  For every state and candidate whose label
matches an existing node case-insensitively, a merge of that candidate
leaves the link collection unchanged (no new link), leaves every other node
byte-identical, and replaces only the first matched node — with all fields
preserved and the status replaced by `active` exactly when the node was
`potential` and the candidate is `active` (otherwise the node too is
unchanged). -/
theorem merge_promotion_frame (s : GraphState) (c : Candidate)
    (n : MindMapNode) (h : firstMatch? s.nodes c.label = some n) :
    (merge s [c]).links = s.links ∧
    ∃ pre post, s.nodes = pre ++ n :: post ∧
      (∀ m ∈ pre, lowerStr m.label ≠ lowerStr c.label) ∧
      (merge s [c]).nodes = pre ++
        (if n.status = NodeStatus.potential ∧ c.status = NodeStatus.active then
          { n with status := NodeStatus.active } else n) :: post := by
  have hstep : merge s [c] = mergeStep s c := rfl
  rw [hstep, mergeStep_nodes_of_found h]
  exact ⟨rfl, upgradeFirst_decomp h⟩

/-- Witness for `merge_promotion_frame`: promoting `Travel` (potential) via
candidate `travel` (active) over the scenario-B state. -/
theorem merge_promotion_frame_witness :
    (merge
        { nodes := [rootNode,
            { id := "Travel", label := "Travel", group := 2, type := .concept,
              status := .potential, description := none }],
          links := [{ source := "Context", target := "Travel" }] }
        [{ label := "travel", type := .concept, status := .active,
           parent := "Context", description := "d" }]).links =
      [({ source := "Context", target := "Travel" } : MindMapLink)] ∧
    ∃ pre post,
      [rootNode,
        ({ id := "Travel", label := "Travel", group := 2, type := .concept,
           status := .potential, description := none } : MindMapNode)] =
        pre ++
          ({ id := "Travel", label := "Travel", group := 2, type := .concept,
             status := .potential, description := none } : MindMapNode) :: post ∧
      (∀ m ∈ pre, lowerStr m.label ≠ lowerStr "travel") ∧
      (merge
          { nodes := [rootNode,
              { id := "Travel", label := "Travel", group := 2, type := .concept,
                status := .potential, description := none }],
            links := [{ source := "Context", target := "Travel" }] }
          [{ label := "travel", type := .concept, status := .active,
             parent := "Context", description := "d" }]).nodes = pre ++
        (if ({ id := "Travel", label := "Travel", group := 2, type := .concept,
               status := .potential, description := none } : MindMapNode).status =
              NodeStatus.potential ∧
            ({ label := "travel", type := .concept, status := .active,
               parent := "Context", description := "d" } : Candidate).status =
              NodeStatus.active then
          { ({ id := "Travel", label := "Travel", group := 2, type := .concept,
               status := .potential, description := none } : MindMapNode) with
            status := NodeStatus.active }
        else
          ({ id := "Travel", label := "Travel", group := 2, type := .concept,
             status := .potential, description := none } : MindMapNode)) :: post :=
  merge_promotion_frame
    { nodes := [rootNode,
        { id := "Travel", label := "Travel", group := 2, type := .concept,
          status := .potential, description := none }],
      links := [{ source := "Context", target := "Travel" }] }
    { label := "travel", type := .concept, status := .active,
      parent := "Context", description := "d" }
    { id := "Travel", label := "Travel", group := 2, type := .concept,
      status := .potential, description := none }
    (by decide)

/-- Claim C7 as stated fails on the code: the node created for a fresh
candidate does not receive the candidate's description.  Concretely,
merging the candidate labelled `Travel` whose description is
`why travel matters` into the initial graph creates a node (at index 1)
whose `description` is `none` — not the candidate's description. -/
theorem merge_description_dropped_cex :
    (merge initialGraph
      [{ label := "Travel", type := .concept, status := .active,
         parent := "Context", description := "why travel matters" }]).nodes.get? 1 =
      some { id := "Travel", label := "Travel", group := 2,
             type := NodeType.concept, status := NodeStatus.active,
             description := none } ∧
    ({ label := "Travel", type := .concept, status := .active,
       parent := "Context",
       description := "why travel matters" } : Candidate).description =
      "why travel matters" ∧
    (none : Option String) ≠ some "why travel matters" := by
  decide

/-- Claim C7 (amended): for every state and candidate whose label matches no
existing node case-insensitively, the merge appends exactly one new node,
whose id and label are the candidate's label and whose type and status are
the candidate's type and status; the candidate's description is not carried
over — the created node has no description. -/
theorem merge_new_node_fields (s : GraphState) (c : Candidate)
    (h : firstMatch? s.nodes c.label = none) :
    (merge s [c]).nodes = s.nodes ++
      [{ id := c.label, label := c.label, group := 2,
         type := c.type.toNodeType, status := c.status,
         description := none }] := by
  have hstep : merge s [c] = mergeStep s c := rfl
  rw [hstep, mergeStep_of_not_found h]
  rfl

/-- Witness for `merge_new_node_fields` at the initial graph and a concrete
candidate. -/
theorem merge_new_node_fields_witness :
    (merge initialGraph
      [{ label := "Travel", type := .concept, status := .active,
         parent := "Context", description := "why travel matters" }]).nodes =
      initialGraph.nodes ++
        [{ id := "Travel", label := "Travel", group := 2,
           type := CandidateType.concept.toNodeType,
           status := NodeStatus.active, description := none }] :=
  merge_new_node_fields initialGraph
    { label := "Travel", type := .concept, status := .active,
      parent := "Context", description := "why travel matters" } (by decide)

theorem bfs_sanity1 :
    (computeDepths [] [{ source := "Context", target := "A" },
      { source := "A", target := "B" }]).depths "B" = some 2 := by
  decide

theorem bfs_sanity2 :
    (computeDepths [] [{ source := "Context", target := "A" },
      { source := "A", target := "B" },
      { source := "X", target := "Y" }]).maxDepth = 2 := by
  decide

theorem bfs_sanity3 :
    (computeDepths [] [{ source := "X", target := "Y" }]).depths "Y" = none := by
  decide

theorem bfs_sanity4 :
    (computeDepths [] [{ source := "Context", target := "A" },
      { source := "Context", target := "B" },
      { source := "B", target := "C" },
      { source := "A", target := "C" }]).depths "C" = some 2 := by
  decide

theorem mem_adjOf {links : List MindMapLink} {u v : String} :
    v ∈ adjOf links u ↔ Edge links u v := by
  unfold adjOf Edge
  constructor
  · intro h
    rcases List.mem_map.mp h with ⟨l, hl, rfl⟩
    rcases List.mem_filter.mp hl with ⟨hmem, hsrc⟩
    exact ⟨l, hmem, beq_iff_eq.mp hsrc, rfl⟩
  · rintro ⟨l, hmem, hsrc, rfl⟩
    exact List.mem_map.mpr ⟨l, List.mem_filter.mpr ⟨hmem, beq_iff_eq.mpr hsrc⟩, rfl⟩

theorem adjOf_subset_targets {links : List MindMapLink} {u : String} :
    adjOf links u ⊆ links.map fun l => l.target := by
  intro v hv
  rcases List.mem_map.mp hv with ⟨l, hl, rfl⟩
  exact List.mem_map.mpr ⟨l, List.mem_of_mem_filter hl, rfl⟩

theorem length_le_of_nodup_subset {l l' : List String} (h1 : l.Nodup)
    (h2 : l ⊆ l') : l.length ≤ l'.length := by
  classical
  calc l.length = l.toFinset.card := (List.toFinset_card_of_nodup h1).symm
  _ ≤ l'.toFinset.card := Finset.card_le_card
      (fun x hx => List.mem_toFinset.mpr (h2 (List.mem_toFinset.mp hx)))
  _ ≤ l'.length := l'.toFinset_card_le

theorem processChildren_spec (d : Nat) :
    ∀ (cs : List String) (q : List (String × Nat)) (vis : List String)
      (dep : String → Option Nat),
      (∀ v, v ∈ vis ↔ (dep v).isSome) →
      ∃ fresh : List String,
        fresh.Nodup ∧
        (∀ c ∈ fresh, c ∈ cs ∧ c ∉ vis) ∧
        (processChildren d cs q vis dep).1 =
          q ++ fresh.map (fun c => (c, d + 1)) ∧
        (processChildren d cs q vis dep).2.1 = fresh.reverse ++ vis ∧
        (∀ x, (processChildren d cs q vis dep).2.2 x =
          if x ∈ fresh then some (d + 1) else dep x) ∧
        (∀ c ∈ cs, c ∈ (processChildren d cs q vis dep).2.1) := by
  intro cs
  induction cs with
  | nil =>
    intro q vis dep _
    exact ⟨[], List.nodup_nil, by simp, by simp [processChildren],
      by simp [processChildren], by simp [processChildren], by simp⟩
  | cons cid rest ih =>
    intro q vis dep hvis
    by_cases hv : cid ∈ vis
    · have hred : processChildren d (cid :: rest) q vis dep =
          processChildren d rest q vis dep := by
        simp only [processChildren]
        rw [if_pos hv]
      rw [hred]
      obtain ⟨fresh, hnd, hprop, hq, hvs, hdep, hall⟩ := ih q vis dep hvis
      refine ⟨fresh, hnd, ?_, hq, hvs, hdep, ?_⟩
      · intro c hc
        obtain ⟨h1, h2⟩ := hprop c hc
        exact ⟨List.mem_cons_of_mem cid h1, h2⟩
      · intro c hc
        rcases List.mem_cons.mp hc with rfl | hc
        · rw [hvs]
          exact List.mem_append_right _ hv
        · exact hall c hc
    · have hred : processChildren d (cid :: rest) q vis dep =
          processChildren d rest (q ++ [(cid, d + 1)]) (cid :: vis)
            (recUpdate dep cid (d + 1)) := by
        simp only [processChildren]
        rw [if_neg hv]
      rw [hred]
      have hvis' : ∀ v, v ∈ cid :: vis ↔
          ((recUpdate dep cid (d + 1)) v).isSome := by
        intro v
        unfold recUpdate
        by_cases hc : v = cid
        · subst hc
          simp
        · rw [if_neg hc]
          simp only [List.mem_cons]
          constructor
          · rintro (rfl | hvv)
            · exact absurd rfl hc
            · exact (hvis v).mp hvv
          · intro hs
            exact Or.inr ((hvis v).mpr hs)
      obtain ⟨fresh, hnd, hprop, hq, hvs, hdep, hall⟩ :=
        ih (q ++ [(cid, d + 1)]) (cid :: vis) (recUpdate dep cid (d + 1)) hvis'
      have hcidfresh : cid ∉ fresh := by
        intro hc
        exact (hprop cid hc).2 (List.mem_cons_self cid vis)
      refine ⟨cid :: fresh, List.nodup_cons.mpr ⟨hcidfresh, hnd⟩, ?_, ?_, ?_, ?_, ?_⟩
      · intro c hc
        rcases List.mem_cons.mp hc with rfl | hc
        · exact ⟨List.mem_cons_self c rest, hv⟩
        · obtain ⟨h1, h2⟩ := hprop c hc
          exact ⟨List.mem_cons_of_mem cid h1,
            fun hcc => h2 (List.mem_cons_of_mem cid hcc)⟩
      · rw [hq, List.append_assoc]
        rfl
      · rw [hvs, List.reverse_cons, List.append_assoc]
        rfl
      · intro x
        rw [hdep x]
        by_cases hx1 : x ∈ fresh
        · rw [if_pos hx1, if_pos (List.mem_cons_of_mem cid hx1)]
        · rw [if_neg hx1]
          unfold recUpdate
          by_cases hx2 : x = cid
          · subst hx2
            rw [if_pos rfl, if_pos (List.mem_cons_self x fresh)]
          · rw [if_neg hx2, if_neg (by
              intro hc
              rcases List.mem_cons.mp hc with rfl | hc
              · exact hx2 rfl
              · exact hx1 hc)]
      · intro c hc
        rcases List.mem_cons.mp hc with rfl | hc
        · rw [hvs]
          exact List.mem_append_right _ (List.mem_cons_self c vis)
        · exact hall c hc

theorem final_of_inv {links : List MindMapLink} {vis : List String}
    {dep : String → Option Nat} {maxD : Nat}
    (h : BfsInv links [] vis dep maxD) : BfsFinal links dep maxD := by
  refine ⟨h.sound, h.root_dep, ?_, ?_, h.maxWit⟩
  · intro u du hdu
    rcases h.closure u du hdu with hmem | hcl
    · cases hmem
    · exact hcl
  · intro v dv hdv
    rcases h.maxBound v dv hdv with hmem | hle
    · cases hmem
    · exact hle

theorem list_pairwise_of_forall {α : Type} {R : α → α → Prop}
    (h : ∀ a b, R a b) : ∀ l : List α, l.Pairwise R
  | [] => List.Pairwise.nil
  | _ :: l => List.Pairwise.cons (fun b _ => h _ b) (list_pairwise_of_forall h l)

theorem bfsInv_step {links : List MindMapLink} {u₀ : String} {d₀ : Nat}
    {rest : List (String × Nat)} {vis : List String}
    {dep : String → Option Nat} {maxD : Nat}
    (hinv : BfsInv links ((u₀, d₀) :: rest) vis dep maxD) :
    BfsInv links (processChildren d₀ (adjOf links u₀) rest vis dep).1
      (processChildren d₀ (adjOf links u₀) rest vis dep).2.1
      (processChildren d₀ (adjOf links u₀) rest vis dep).2.2
      (max maxD d₀) := by
  obtain ⟨fresh, hnd, hprop, hq, hvs, hdep, hall⟩ :=
    processChildren_spec d₀ (adjOf links u₀) rest vis dep hinv.vis_iff
  set r := processChildren d₀ (adjOf links u₀) rest vis dep with hrdef
  have hdep0 : dep u₀ = some d₀ :=
    hinv.queue_dep (u₀, d₀) (List.mem_cons_self _ _)
  have hreach0 : Reaches links u₀ d₀ := hinv.sound u₀ d₀ hdep0
  have hsorted := List.pairwise_cons.mp hinv.sorted
  have hfresh_none : ∀ c ∈ fresh, dep c = none := by
    intro c hc
    have h2 := (hprop c hc).2
    rcases hdc : dep c with _ | dv
    · rfl
    · exact absurd ((hinv.vis_iff c).mpr (by rw [hdc]; rfl)) h2
  have hnotfresh : ∀ v dv, dep v = some dv → v ∉ fresh := by
    intro v dv hv hc
    rw [hfresh_none v hc] at hv
    cases hv
  have hdep'_of_old : ∀ v dv, dep v = some dv → r.2.2 v = some dv := by
    intro v dv hv
    rw [hdep v, if_neg (hnotfresh v dv hv)]
    exact hv
  have hdep'_fresh : ∀ c ∈ fresh, r.2.2 c = some (d₀ + 1) := by
    intro c hc
    rw [hdep c, if_pos hc]
  have hdep'_elim : ∀ v dv, r.2.2 v = some dv →
      (v ∈ fresh ∧ dv = d₀ + 1) ∨ (v ∉ fresh ∧ dep v = some dv) := by
    intro v dv hv
    rw [hdep v] at hv
    by_cases hc : v ∈ fresh
    · rw [if_pos hc] at hv
      injection hv with hv
      exact Or.inl ⟨hc, hv.symm⟩
    · rw [if_neg hc] at hv
      exact Or.inr ⟨hc, hv⟩
  have hq_elim : ∀ p, p ∈ r.1 → p ∈ rest ∨ (p.1 ∈ fresh ∧ p.2 = d₀ + 1) := by
    intro p hp
    rw [hq] at hp
    rcases List.mem_append.mp hp with hp | hp
    · exact Or.inl hp
    · rcases List.mem_map.mp hp with ⟨c, hc, rfl⟩
      exact Or.inr ⟨hc, rfl⟩
  have hq_fresh : ∀ c ∈ fresh, (c, d₀ + 1) ∈ r.1 := by
    intro c hc
    rw [hq]
    exact List.mem_append_right _ (List.mem_map.mpr ⟨c, hc, rfl⟩)
  have hq_rest : ∀ p ∈ rest, p ∈ r.1 := by
    intro p hp
    rw [hq]
    exact List.mem_append_left _ hp
  refine ⟨?_, ?_, ?_, ?_, ?_, ?_, ?_, ?_, ?_, ?_, ?_, ?_⟩
  · -- sound
    intro v dv hv
    rcases hdep'_elim v dv hv with ⟨hc, rfl⟩ | ⟨_, hold⟩
    · exact Reaches.step hreach0 (mem_adjOf.mp (hprop v hc).1)
    · exact hinv.sound v dv hold
  · -- root_dep
    exact hdep'_of_old _ _ hinv.root_dep
  · -- vis_iff
    intro v
    rw [hvs, List.mem_append, List.mem_reverse, hdep v]
    by_cases hc : v ∈ fresh
    · simp [hc]
    · simp [hc, hinv.vis_iff v]
  · -- queue_dep
    intro p hp
    rcases hq_elim p hp with hp | ⟨hc, h2⟩
    · exact hdep'_of_old p.1 p.2 (hinv.queue_dep p (List.mem_cons_of_mem _ hp))
    · rw [h2]
      exact hdep'_fresh p.1 hc
  · -- closure
    intro u du hu
    rcases hdep'_elim u du hu with ⟨hc, rfl⟩ | ⟨hnf, hold⟩
    · exact Or.inl (hq_fresh u hc)
    · rcases hinv.closure u du hold with hmem | hcl
      · rcases List.mem_cons.mp hmem with heq | hmem
        · injection heq with heq1 heq2
          subst heq1
          subst heq2
          refine Or.inr ?_
          intro v hv
          have hvvis : v ∈ r.2.1 := hall v hv
          rw [hvs, List.mem_append, List.mem_reverse] at hvvis
          rcases hvvis with hvf | hvv
          · exact ⟨du + 1, hdep'_fresh v hvf, le_refl _⟩
          · have hs := (hinv.vis_iff v).mp hvv
            rcases hdv : dep v with _ | dv
            · rw [hdv] at hs
              cases hs
            · refine ⟨dv, hdep'_of_old v dv hdv, ?_⟩
              exact hinv.depBound v dv hdv (u, du) (List.mem_cons_self _ _)
        · exact Or.inl (hq_rest _ hmem)
      · refine Or.inr ?_
        intro v hv
        obtain ⟨dv, hdv, hle⟩ := hcl v hv
        exact ⟨dv, hdep'_of_old v dv hdv, hle⟩
  · -- sorted
    rw [hq, List.pairwise_append]
    refine ⟨hsorted.2, ?_, ?_⟩
    · rw [List.pairwise_map]
      exact list_pairwise_of_forall (fun a b => le_refl _) fresh
    · intro a ha b hb
      rcases List.mem_map.mp hb with ⟨c, _, rfl⟩
      exact hinv.twoLevel a (List.mem_cons_of_mem _ ha) (u₀, d₀)
        (List.mem_cons_self _ _)
  · -- twoLevel
    intro a ha b hb
    rcases hq_elim a ha with ha' | ⟨_, ha2⟩ <;>
      rcases hq_elim b hb with hb' | ⟨_, hb2⟩
    · exact hinv.twoLevel a (List.mem_cons_of_mem _ ha') b
        (List.mem_cons_of_mem _ hb')
    · have h1 : a.2 ≤ d₀ + 1 := hinv.twoLevel a (List.mem_cons_of_mem _ ha')
        (u₀, d₀) (List.mem_cons_self _ _)
      omega
    · have h1 : d₀ ≤ b.2 := hsorted.1 b hb'
      omega
    · omega
  · -- depBound
    intro v dv hv b hb
    rcases hdep'_elim v dv hv with ⟨_, rfl⟩ | ⟨_, hold⟩
    · rcases hq_elim b hb with hb' | ⟨_, hb2⟩
      · have h1 : d₀ ≤ b.2 := hsorted.1 b hb'
        omega
      · omega
    · rcases hq_elim b hb with hb' | ⟨_, hb2⟩
      · exact hinv.depBound v dv hold b (List.mem_cons_of_mem _ hb')
      · have h1 : dv ≤ d₀ + 1 :=
          hinv.depBound v dv hold (u₀, d₀) (List.mem_cons_self _ _)
        omega
  · -- maxBound
    intro v dv hv
    rcases hdep'_elim v dv hv with ⟨hc, rfl⟩ | ⟨_, hold⟩
    · exact Or.inl (hq_fresh v hc)
    · rcases hinv.maxBound v dv hold with hmem | hle
      · rcases List.mem_cons.mp hmem with heq | hmem
        · injection heq with heq1 heq2
          subst heq2
          exact Or.inr (le_max_right _ _)
        · exact Or.inl (hq_rest _ hmem)
      · exact Or.inr (le_trans hle (le_max_left _ _))
  · -- maxWit
    rcases Nat.le_total maxD d₀ with h | h
    · rw [Nat.max_eq_right h]
      exact ⟨u₀, hdep'_of_old u₀ d₀ hdep0⟩
    · rw [Nat.max_eq_left h]
      obtain ⟨v₀, hv₀⟩ := hinv.maxWit
      exact ⟨v₀, hdep'_of_old v₀ maxD hv₀⟩
  · -- visNodup
    rw [hvs]
    refine List.Nodup.append (List.nodup_reverse.mpr hnd) hinv.visNodup ?_
    intro a haf hav
    rw [List.mem_reverse] at haf
    exact (hprop a haf).2 hav
  · -- visSub
    rw [hvs]
    intro a ha
    rcases List.mem_append.mp ha with ha | ha
    · rw [List.mem_reverse] at ha
      exact List.mem_cons_of_mem _ (adjOf_subset_targets (hprop a ha).1)
    · exact hinv.visSub ha

theorem bfsAux_correct (links : List MindMapLink) :
    ∀ (fuel : Nat) (q : List (String × Nat)) (vis : List String)
      (dep : String → Option Nat) (maxD : Nat),
      BfsInv links q vis dep maxD →
      q.length + links.length + 1 ≤ fuel + vis.length →
      BfsFinal links (bfsAux (adjOf links) fuel q vis dep maxD).1
        (bfsAux (adjOf links) fuel q vis dep maxD).2 := by
  intro fuel
  induction fuel with
  | zero =>
    intro q vis dep maxD hinv hfuel
    have hvlen : vis.length ≤ links.length + 1 := by
      have h := length_le_of_nodup_subset hinv.visNodup hinv.visSub
      simpa using h
    have hq : q = [] := by
      have : q.length = 0 := by omega
      exact List.length_eq_zero.mp this
    subst hq
    exact final_of_inv hinv
  | succ fuel ih =>
    intro q vis dep maxD hinv hfuel
    cases q with
    | nil => exact final_of_inv hinv
    | cons hd rest =>
      obtain ⟨u₀, d₀⟩ := hd
      obtain ⟨fresh, hnd, hprop, hq, hvs, hdep, hall⟩ :=
        processChildren_spec d₀ (adjOf links u₀) rest vis dep hinv.vis_iff
      have hinv' := bfsInv_step hinv
      have hfuel' :
          (processChildren d₀ (adjOf links u₀) rest vis dep).1.length +
            links.length + 1 ≤
          fuel + (processChildren d₀ (adjOf links u₀) rest vis dep).2.1.length := by
        rw [hq, hvs]
        simp only [List.length_append, List.length_map, List.length_reverse]
        simp only [List.length_cons] at hfuel
        omega
      exact ih _ _ _ _ hinv' hfuel'

/-- The BFS invariant holds at the start configuration built by
`computeDepths`. -/
theorem bfsInv_init (links : List MindMapLink) :
    BfsInv links [("Context", 0)] ["Context"]
      (recUpdate (fun _ => none) "Context" 0) 0 := by
  have hdep : ∀ v d, recUpdate (fun _ => none) "Context" 0 v = some d →
      v = "Context" ∧ d = 0 := by
    intro v d h
    unfold recUpdate at h
    by_cases hv : v = "Context"
    · rw [if_pos hv] at h
      injection h with h
      exact ⟨hv, h.symm⟩
    · rw [if_neg hv] at h
      cases h
  refine ⟨?_, ?_, ?_, ?_, ?_, ?_, ?_, ?_, ?_, ?_, ?_, ?_⟩
  · intro v d h
    obtain ⟨rfl, rfl⟩ := hdep v d h
    exact Reaches.refl
  · unfold recUpdate
    rw [if_pos rfl]
  · intro v
    unfold recUpdate
    by_cases hv : v = "Context"
    · subst hv
      simp
    · rw [if_neg hv]
      simp [hv]
  · intro p hp
    rcases List.mem_singleton.mp hp with rfl
    unfold recUpdate
    rw [if_pos rfl]
  · intro u du h
    obtain ⟨rfl, rfl⟩ := hdep u du h
    exact Or.inl (List.mem_singleton_self _)
  · exact List.pairwise_singleton _ _
  · intro a ha b hb
    rcases List.mem_singleton.mp ha with rfl
    rcases List.mem_singleton.mp hb with rfl
    omega
  · intro v dv h b hb
    obtain ⟨rfl, rfl⟩ := hdep v dv h
    rcases List.mem_singleton.mp hb with rfl
    omega
  · intro v dv h
    obtain ⟨rfl, rfl⟩ := hdep v dv h
    exact Or.inl (List.mem_singleton_self _)
  · refine ⟨"Context", ?_⟩
    unfold recUpdate
    rw [if_pos rfl]
  · exact List.nodup_singleton _
  · intro a ha
    rcases List.mem_singleton.mp ha with rfl
    exact List.mem_cons_self _ _

/-- The final-state properties of the BFS hold of the `computeDepths`
result for every node list and link list. -/
theorem computeDepths_final (nodeList : List MindMapNode)
    (links : List MindMapLink) :
    BfsFinal links (computeDepths nodeList links).depths
      (computeDepths nodeList links).maxDepth := by
  have h := bfsAux_correct links (links.length + 1) [("Context", 0)]
    ["Context"] (recUpdate (fun _ => none) "Context" 0) 0
    (bfsInv_init links) (by simp; omega)
  exact h

theorem depths_le_of_reaches {links : List MindMapLink}
    {dep : String → Option Nat} {maxD : Nat} (hf : BfsFinal links dep maxD) :
    ∀ {v k}, Reaches links v k → ∃ d, dep v = some d ∧ d ≤ k := by
  intro v k h
  induction h with
  | refl => exact ⟨0, hf.root_dep, le_refl 0⟩
  | @step u v' k' hr he ih =>
    obtain ⟨du, hdu, hle⟩ := ih
    obtain ⟨dv, hdv, hle2⟩ := hf.closure u du hdu v' (mem_adjOf.mpr he)
    exact ⟨dv, hdv, by omega⟩

/-- Claim C5: depth correctness.  For every node list and link list:
every id reachable from the root gets a depth entry equal to its BFS
distance (an attained, minimal step count); unreachable ids get no entry,
so the layout's `depths[id] ?? 0` read yields 0 for them; and `maxDepth` is
the largest assigned depth (attained by some entry). -/
theorem computeDepths_correct (nodeList : List MindMapNode)
    (links : List MindMapLink) :
    (∀ v k, Reaches links v k →
      ∃ d, (computeDepths nodeList links).depths v = some d ∧
        Reaches links v d ∧ ∀ j, Reaches links v j → d ≤ j) ∧
    (∀ v, (∀ k, ¬Reaches links v k) →
      (computeDepths nodeList links).depths v = none ∧
      nodeDepth (computeDepths nodeList links) v = 0) ∧
    (∀ v d, (computeDepths nodeList links).depths v = some d →
      d ≤ (computeDepths nodeList links).maxDepth) ∧
    (∃ v, (computeDepths nodeList links).depths v =
      some (computeDepths nodeList links).maxDepth) := by
  have hf := computeDepths_final nodeList links
  refine ⟨?_, ?_, hf.le_max, hf.max_wit⟩
  · intro v k hk
    obtain ⟨d, hd, _⟩ := depths_le_of_reaches hf hk
    refine ⟨d, hd, hf.sound v d hd, ?_⟩
    intro j hj
    obtain ⟨d', hd', hle'⟩ := depths_le_of_reaches hf hj
    rw [hd] at hd'
    injection hd' with hd'
    omega
  · intro v hv
    rcases hd : (computeDepths nodeList links).depths v with _ | d
    · exact ⟨rfl, by simp [nodeDepth, hd]⟩
    · exact absurd (hf.sound v d hd) (hv d)

/-- Witness for `computeDepths_correct`: over the single link
`Context→A`, the id `A` is reachable in one step and receives the minimal
depth entry. -/
theorem computeDepths_correct_witness :
    ∃ d, (computeDepths [] [{ source := "Context", target := "A" }]).depths
        "A" = some d ∧
      Reaches [{ source := "Context", target := "A" }] "A" d ∧
      ∀ j, Reaches [{ source := "Context", target := "A" }] "A" j → d ≤ j :=
  (computeDepths_correct [] [{ source := "Context", target := "A" }]).1 "A" 1
    (Reaches.step Reaches.refl
      ⟨{ source := "Context", target := "A" }, List.mem_singleton_self _,
        rfl, rfl⟩)

/-- Claim C4: root invariant.  After any sequence of merges from the
initial state (including the empty sequence), a node with id `Context` is
present, and `computeDepths` assigns that id depth 0 (both as the entry
`some 0` and through the layout's `?? 0` read). -/
theorem root_invariant_mergeSeq (css : List (List Candidate)) :
    (∃ n ∈ (mergeSeq initialGraph css).nodes, n.id = "Context") ∧
    (computeDepths (mergeSeq initialGraph css).nodes
      (mergeSeq initialGraph css).links).depths "Context" = some 0 ∧
    nodeDepth (computeDepths (mergeSeq initialGraph css).nodes
      (mergeSeq initialGraph css).links) "Context" = 0 := by
  refine ⟨?_, ?_, ?_⟩
  · have h0 : initialGraph.nodes.get? 0 = some rootNode := rfl
    obtain ⟨n', h1, hid, _⟩ := evolves_get? (mergeSeq_evolves css initialGraph) h0
    exact ⟨n', List.get?_mem h1, by rw [hid]; rfl⟩
  · exact (computeDepths_final _ _).root_dep
  · rw [nodeDepth, (computeDepths_final _ _).root_dep]
    rfl

/-- Claim C6 as stated fails on the code: over the acyclic (empty) link
set, `getPathToRoot "X"` returns `{X}`, which does not contain the root id
`Context` — the chain from the queried id simply never reaches the root. -/
theorem getPathToRoot_root_missing_cex :
    Acyclic ([] : List MindMapLink) ∧
    getPathToRoot "X" [] = ["X"] ∧
    "Context" ∉ getPathToRoot "X" [] := by
  refine ⟨?_, by decide, by decide⟩
  intro v n hn hp
  cases hp with
  | refl => omega
  | step hpp he => exact absurd he (by rintro ⟨l, hl, -⟩; cases hl)

theorem pathAux_succ_none {links : List MindMapLink} {fuel : Nat}
    {path : List String} {cur : String}
    (hf : links.find? (fun l => l.target == cur) = none) :
    pathAux links (fuel + 1) path cur = path := by
  unfold pathAux
  rw [hf]

theorem pathAux_succ_mem {links : List MindMapLink} {fuel : Nat}
    {path : List String} {cur : String} {l : MindMapLink}
    (hf : links.find? (fun l' => l'.target == cur) = some l)
    (hmem : l.source ∈ path) :
    pathAux links (fuel + 1) path cur = path := by
  unfold pathAux
  rw [hf]
  exact if_pos hmem

theorem pathAux_succ_step {links : List MindMapLink} {fuel : Nat}
    {path : List String} {cur : String} {l : MindMapLink}
    (hf : links.find? (fun l' => l'.target == cur) = some l)
    (hmem : l.source ∉ path) :
    pathAux links (fuel + 1) path cur =
      pathAux links fuel (path ++ [l.source]) l.source := by
  simp only [pathAux]
  rw [hf]
  exact if_neg hmem

theorem pathAux_superset (links : List MindMapLink) :
    ∀ (fuel : Nat) (path : List String) (cur x : String),
      x ∈ path → x ∈ pathAux links fuel path cur := by
  intro fuel
  induction fuel with
  | zero =>
    intro path cur x hx
    exact hx
  | succ f ih =>
    intro path cur x hx
    cases hf : links.find? (fun l => l.target == cur) with
    | none =>
      rw [pathAux_succ_none hf]
      exact hx
    | some l =>
      by_cases hmem : l.source ∈ path
      · rw [pathAux_succ_mem hf hmem]
        exact hx
      · rw [pathAux_succ_step hf hmem]
        exact ih (path ++ [l.source]) l.source x (List.mem_append_left _ hx)

theorem filter_ne_length_of_nodup {R : List String} {s : String}
    (hnd : R.Nodup) (hs : s ∈ R) :
    (R.filter fun x => decide (x ≠ s)).length = R.length - 1 := by
  induction R with
  | nil => cases hs
  | cons a R' ih =>
    rcases List.nodup_cons.mp hnd with ⟨hna, hnd'⟩
    rcases List.mem_cons.mp hs with rfl | hs'
    · have hall : R'.filter (fun x => decide (x ≠ s)) = R' :=
        List.filter_eq_self.mpr fun x hx =>
          decide_eq_true (fun hxs => hna (hxs ▸ hx))
      rw [List.filter_cons, if_neg (by simp), hall]
      simp
    · have hne : a ≠ s := fun h => hna (h ▸ hs')
      have hlen : 1 ≤ R'.length := List.length_pos.mpr (List.ne_nil_of_mem hs')
      have ihx := ih hnd' hs'
      rw [List.filter_cons, if_pos (decide_eq_true hne)]
      simp only [List.length_cons, ihx]
      omega

theorem remCount_append (links : List MindMapLink) (path : List String)
    (s : String) :
    remCount links (path ++ [s]) =
      (((links.map fun l => l.source).dedup.filter
        fun x => decide (x ∉ path)).filter fun x => decide (x ≠ s)).length := by
  unfold remCount
  congr 1
  rw [List.filter_filter]
  apply List.filter_congr
  intro x _
  simp only [List.mem_append, List.mem_singleton, not_or, Bool.decide_and,
    decide_not]
  rw [Bool.and_comm]

theorem remCount_dec (links : List MindMapLink) (path : List String)
    {l : MindMapLink} (hl : l ∈ links) (hs : l.source ∉ path) :
    remCount links (path ++ [l.source]) = remCount links path - 1 := by
  rw [remCount_append]
  exact filter_ne_length_of_nodup
    (List.Nodup.filter _ (List.nodup_dedup _))
    (List.mem_filter.mpr ⟨List.mem_dedup.mpr (List.mem_map.mpr ⟨l, hl, rfl⟩),
      decide_eq_true hs⟩)

theorem pathAux_stable (links : List MindMapLink) :
    ∀ (f : Nat) (path : List String) (cur : String),
      remCount links path ≤ f →
      pathAux links f path cur =
        pathAux links (remCount links path) path cur := by
  intro f
  induction f with
  | zero =>
    intro path cur h
    have h0 : remCount links path = 0 := Nat.le_zero.mp h
    rw [h0]
  | succ f ih =>
    intro path cur h
    cases hf : links.find? (fun l => l.target == cur) with
    | none =>
      rw [pathAux_succ_none hf]
      cases hrc : remCount links path with
      | zero => rfl
      | succ k => rw [pathAux_succ_none hf]
    | some l =>
      by_cases hmem : l.source ∈ path
      · rw [pathAux_succ_mem hf hmem]
        cases hrc : remCount links path with
        | zero => rfl
        | succ k => rw [pathAux_succ_mem hf hmem]
      · have hl : l ∈ links := List.mem_of_find?_eq_some hf
        have hpos : 1 ≤ remCount links path := by
          apply List.length_pos.mpr
          apply List.ne_nil_of_mem
          exact List.mem_filter.mpr ⟨List.mem_dedup.mpr
            (List.mem_map.mpr ⟨l, hl, rfl⟩), decide_eq_true hmem⟩
        have hdec := remCount_dec links path hl hmem
        cases hrc : remCount links path with
        | zero => omega
        | succ k =>
          rw [pathAux_succ_step hf hmem, pathAux_succ_step hf hmem]
          have hk : remCount links (path ++ [l.source]) = k := by
            rw [hdec, hrc]
            omega
          have h1 := ih (path ++ [l.source]) l.source (by rw [hk]; omega)
          rw [h1, hk]

theorem chainList_edge {links : List MindMapLink} {cur : String}
    {l : MindMapLink}
    (hf : links.find? (fun l' => l'.target == cur) = some l) :
    Edge links l.source cur := by
  have hmem := List.mem_of_find?_eq_some hf
  have hp := List.find?_some hf
  exact ⟨l, hmem, rfl, beq_iff_eq.mp hp⟩

theorem chainList_pathFrom {links : List MindMapLink} :
    ∀ {cur : String} {cl : List String}, ChainList links cur cl →
      ∀ x ∈ cl, ∃ m, 1 ≤ m ∧ PathFrom links x cur m := by
  intro cur cl h
  induction h with
  | nil =>
    intro x hx
    cases hx
  | @cons cur' l rest hf hcl ih =>
    intro x hx
    rcases List.mem_cons.mp hx with rfl | hx
    · exact ⟨1, le_refl 1, PathFrom.step (PathFrom.refl _) (chainList_edge hf)⟩
    · obtain ⟨m, hm, hp⟩ := ih x hx
      exact ⟨m + 1, by omega, PathFrom.step hp (chainList_edge hf)⟩

theorem chainList_head_not_mem {links : List MindMapLink}
    (hacyc : Acyclic links) {cur : String} {cl : List String}
    (h : ChainList links cur cl) : cur ∉ cl := by
  intro hcur
  obtain ⟨m, hm, hp⟩ := chainList_pathFrom h cur hcur
  exact hacyc cur m hm hp

theorem chain_pathAux {links : List MindMapLink} (hacyc : Acyclic links) :
    ∀ {cur : String} {cl : List String}, ChainList links cur cl →
      ∀ (path : List String) (fuel : Nat), cl.length ≤ fuel →
        cur ∈ path → (∀ x ∈ cl, x ∉ path) →
        "Context" ∈ pathAux links fuel path cur := by
  intro cur cl h
  induction h with
  | nil =>
    intro path fuel _ hcur _
    exact pathAux_superset links fuel path _ _ hcur
  | @cons cur' l rest hf hcl ih =>
    intro path fuel hfuel hcur hdisj
    cases fuel with
    | zero =>
      rw [List.length_cons] at hfuel
      omega
    | succ f =>
      have hsrc_not : l.source ∉ path := hdisj l.source (List.mem_cons_self _ _)
      rw [pathAux_succ_step hf hsrc_not]
      refine ih (path ++ [l.source]) f ?_
        (List.mem_append_right _ (List.mem_singleton_self _)) ?_
      · rw [List.length_cons] at hfuel
        omega
      · intro x hx hxmem
        rcases List.mem_append.mp hxmem with hxp | hxs
        · exact hdisj x (List.mem_cons_of_mem _ hx) hxp
        · rcases List.mem_singleton.mp hxs with rfl
          exact chainList_head_not_mem hacyc hcl hx

/-- Claim C6 (amended): path termination and completeness.  For every
acyclic link set and every queried id whose first-found parent chain
reaches the root within the 100-iteration cap, `getPathToRoot` returns a
set containing both the queried id and the root id `Context`; and
independently of the cap, the loop's result is already stable after
`remCount links [t]` iterations (the distinct link sources outside the
initial path — at most the link count, hence at most the node count of a
well-formed graph), so the traversal terminates within that many steps. -/
theorem getPathToRoot_amended (links : List MindMapLink) (t : String)
    (cl : List String) (hacyc : Acyclic links)
    (hchain : ChainList links t cl) (hcap : cl.length ≤ 100) :
    t ∈ getPathToRoot t links ∧
    "Context" ∈ getPathToRoot t links ∧
    (∀ f g, remCount links [t] ≤ f → remCount links [t] ≤ g →
      pathAux links f [t] t = pathAux links g [t] t) ∧
    remCount links [t] ≤ links.length := by
  refine ⟨?_, ?_, ?_, ?_⟩
  · exact pathAux_superset links 100 [t] t t (List.mem_singleton_self t)
  · refine chain_pathAux hacyc hchain [t] 100 hcap (List.mem_singleton_self t) ?_
    intro x hx hxp
    rcases List.mem_singleton.mp hxp with rfl
    exact chainList_head_not_mem hacyc hchain hx
  · intro f g hfge hgge
    rw [pathAux_stable links f [t] t hfge, pathAux_stable links g [t] t hgge]
  · calc remCount links [t] ≤ ((links.map fun l => l.source).dedup).length :=
        List.length_filter_le _ _
    _ ≤ (links.map fun l => l.source).length := (List.dedup_sublist _).length_le
    _ = links.length := List.length_map _ _

theorem pathFrom_single_link :
    ∀ {a b : String} {m : Nat},
      PathFrom [{ source := "Context", target := "A" }] a b m →
      (a = b ∧ m = 0) ∨ (a = "Context" ∧ b = "A" ∧ m = 1) := by
  have hedge : ∀ x y, Edge [{ source := "Context", target := "A" }] x y →
      x = "Context" ∧ y = "A" := by
    rintro x y ⟨l, hl, h1, h2⟩
    rcases List.mem_singleton.mp hl with rfl
    exact ⟨h1.symm, h2.symm⟩
  intro a b m hp
  induction hp with
  | refl => exact Or.inl ⟨rfl, rfl⟩
  | step hpp he ih =>
    obtain ⟨h1, h2⟩ := hedge _ _ he
    rcases ih with ⟨h3, h4⟩ | ⟨h3, h4, h5⟩
    · exact Or.inr ⟨h3.trans h1, h2, by omega⟩
    · exact absurd (h4.symm.trans h1) (by decide)

theorem acyclic_single_link :
    Acyclic [{ source := "Context", target := "A" }] := by
  intro v n hn hp
  rcases pathFrom_single_link hp with ⟨_, h⟩ | ⟨h1, h2, _⟩
  · omega
  · exact absurd (h1.symm.trans h2) (by decide)

/-- Witness for `getPathToRoot_amended`: the single acyclic link
`Context→A`, queried at `A`, whose first-found parent chain is
`[Context]`. -/
theorem getPathToRoot_amended_witness :
    "A" ∈ getPathToRoot "A" [{ source := "Context", target := "A" }] ∧
    "Context" ∈ getPathToRoot "A" [{ source := "Context", target := "A" }] ∧
    (∀ f g, remCount [{ source := "Context", target := "A" }] ["A"] ≤ f →
      remCount [{ source := "Context", target := "A" }] ["A"] ≤ g →
      pathAux [{ source := "Context", target := "A" }] f ["A"] "A" =
        pathAux [{ source := "Context", target := "A" }] g ["A"] "A") ∧
    remCount [{ source := "Context", target := "A" }] ["A"] ≤
      [({ source := "Context", target := "A" } : MindMapLink)].length :=
  getPathToRoot_amended [{ source := "Context", target := "A" }] "A"
    ["Context"] acyclic_single_link
    (@ChainList.cons [{ source := "Context", target := "A" }] "A"
      { source := "Context", target := "A" } [] (by decide) ChainList.nil)
    (by decide)

/-- Claim C9: layout warm-start.  In the prepared simulation node list,
every node without a cache entry is initialized at the container's
horizontal center, at vertical coordinate `computed depth × tier spacing +
top padding`, with zero velocity in both axes; every node with a cache
entry is initialized from the cached position and velocity. -/
theorem simulationNodes_warm_start (nodes : List MindMapNode)
    (links : List MindMapLink) (cache : String → Option CachedPos)
    (containerWidth : ℚ) (n : MindMapNode) (hn : n ∈ nodes) :
    (cache n.id = none →
      ({ node := n, x := containerWidth / 2,
         y := (nodeDepth (computeDepths nodes links) n.id : ℚ) * Y_SPACING +
           PADDING_TOP,
         vx := 0, vy := 0 } : SimNode) ∈
        simulationNodes nodes links cache containerWidth) ∧
    (∀ p, cache n.id = some p →
      ({ node := n, x := p.x, y := p.y, vx := p.vx, vy := p.vy } : SimNode) ∈
        simulationNodes nodes links cache containerWidth) := by
  have hrw : simulationNodes nodes links cache containerWidth =
      nodes.map fun m =>
        match cache m.id with
        | some oldPos =>
          { node := m, x := oldPos.x, y := oldPos.y,
            vx := oldPos.vx, vy := oldPos.vy }
        | none =>
          { node := m, x := containerWidth / 2,
            y := (nodeDepth (computeDepths nodes links) m.id : ℚ) *
              Y_SPACING + PADDING_TOP,
            vx := 0, vy := 0 } := rfl
  constructor
  · intro hc
    rw [hrw]
    refine List.mem_map.mpr ⟨n, hn, ?_⟩
    rw [hc]
  · intro p hc
    rw [hrw]
    refine List.mem_map.mpr ⟨n, hn, ?_⟩
    rw [hc]

/-- Witness for `simulationNodes_warm_start`: the node `Travel` at depth 1
with no cache entry starts centered at `800 / 2` and at
`1 × Y_SPACING + PADDING_TOP` with zero velocity. -/
theorem simulationNodes_warm_start_witness :
    ({ node := { id := "Travel", label := "Travel", group := 2,
                 type := NodeType.concept, status := NodeStatus.active,
                 description := none },
       x := (800 : ℚ) / 2,
       y := (nodeDepth (computeDepths
               [rootNode,
                { id := "Travel", label := "Travel", group := 2,
                  type := NodeType.concept, status := NodeStatus.active,
                  description := none }]
               [{ source := "Context", target := "Travel" }]) "Travel" : ℚ) *
            Y_SPACING + PADDING_TOP,
       vx := 0, vy := 0 } : SimNode) ∈
      simulationNodes
        [rootNode,
         { id := "Travel", label := "Travel", group := 2,
           type := NodeType.concept, status := NodeStatus.active,
           description := none }]
        [{ source := "Context", target := "Travel" }]
        (fun id => if id = "Context" then
          some { x := 100, y := 60, vx := 0, vy := 0 } else none)
        800 :=
  (simulationNodes_warm_start
    [rootNode,
     { id := "Travel", label := "Travel", group := 2,
       type := NodeType.concept, status := NodeStatus.active,
       description := none }]
    [{ source := "Context", target := "Travel" }]
    (fun id => if id = "Context" then
      some { x := 100, y := 60, vx := 0, vy := 0 } else none)
    800
    { id := "Travel", label := "Travel", group := 2,
      type := NodeType.concept, status := NodeStatus.active,
      description := none }
    (by decide)).1 (by decide)
